import Mathlib

/-!
# Verification of the vscode-settings-sync archive transfer pipeline

A shallow embedding, in Lean 4, of the core of `vscode-settings-sync`
(`src/main.go`, which contains the current revision of the program together
with two near-duplicate earlier revisions, plus `src/unnamed/part_000`):

* the lexical path operations of Go's `path/filepath` package that the
  program relies on (`Clean`, `Join`, `Dir`, `strings.HasPrefix` on paths),
  modelled for a Unix host where `os.PathSeparator = '/'`;
* the entry filter `shouldSkip`;
* the streaming archive encoder `addFolderToZip` (driven by
  `filepath.WalkDir`) and the buffered encoder `zipSource` (driven by
  `filepath.Walk`);
* the archive decoder `unzipDest` with its ZipSlip defence;
* the backup manager `backupDir`;
* the client and server orchestration (`runClient` / the `/sync` handler),
  in both the current and the legacy revision.

Filesystem effects are modelled as explicit lists of operations; I/O
failures are modelled as explicit error fields on the input data, so that
every code path of the Go source (including its error branches) has a
counterpart here.  Bytes and paths are `List Char`.
-/

namespace VSSync

/-- A filesystem path (or file payload), as a list of characters.
Go strings are byte strings; all paths handled by the program are
well-formed character data, so `List Char` is a faithful carrier. -/
abbrev Path := List Char

/-! ## Go `path/filepath` lexical operations (Unix: separator `'/'`)

`filepath.Clean` is the Plan 9 path-cleaning algorithm: split on the
separator, drop empty and `.` components, resolve `..` against preceding
components (dropping `..` at the root of a rooted path), and re-render.
`filepath.Join` joins the non-empty arguments with the separator and cleans
the result.  `filepath.Dir` is everything up to and including the final
separator, cleaned. -/

/-- Split a character list on `'/'` (the separator).  `splitSep []` is
`[[]]`, matching `strings.Split("", "/") = [""]`. -/
def splitSep : Path → List Path
  | [] => [[]]
  | c :: rest =>
    let r := splitSep rest
    if c = '/' then [] :: r
    else
      match r with
      | h :: t => (c :: h) :: t
      | [] => [[c]]

/-- One step of `filepath.Clean`'s component processing.  `stack` holds the
output components in reverse.  `rooted` tells whether the original path was
absolute (so `..` at the root is dropped). -/
def cleanStep (rooted : Bool) (stack : List Path) (c : Path) : List Path :=
  if c = [] ∨ c = ['.'] then stack
  else if c = ['.', '.'] then
    match stack with
    | [] => if rooted then [] else [['.', '.']]
    | top :: rest => if top = ['.', '.'] then c :: top :: rest else rest
  else c :: stack

/-- The cleaned component list of a path (in order). -/
def cleanComps (rooted : Bool) (s : Path) : List Path :=
  ((splitSep s).foldl (cleanStep rooted) []).reverse

/-- Render a component list with `'/'` separators. -/
def renderSep (cs : List Path) : Path :=
  (cs.intersperse ['/']).flatten

/-- `filepath.Clean` (Unix). -/
def cleanL (s : Path) : Path :=
  if s = [] then ['.']
  else
    let rooted := s.head? = some '/'
    let out := renderSep (cleanComps rooted s)
    if rooted then '/' :: out
    else if out = [] then ['.'] else out

/-- `filepath.Join(a, b)` (Unix): join the non-empty arguments with the
separator and clean. -/
def goJoin2 (a b : Path) : Path :=
  if a = [] then
    if b = [] then [] else cleanL b
  else if b = [] then cleanL a
  else cleanL (a ++ '/' :: b)

/-- `filepath.Dir` (Unix): everything up to and including the final
separator, cleaned (`Clean("")` is `"."`, covering the no-separator case). -/
def goDir (p : Path) : Path :=
  cleanL ((p.reverse.dropWhile (· ≠ '/')).reverse)

/-- Render a path relative to a walk root, as `filepath.Rel` produces it:
the empty component list (the root itself) renders as `"."`. -/
def renderRel (cs : List Path) : Path :=
  if cs = [] then ['.'] else renderSep cs

/-! ## The entry filter `shouldSkip` (src/main.go, current revision)

```go
func shouldSkip(path string) bool {
    var skipDirs = map[string]bool{
        "Cache": true, "CachedData": true, "Code Cache": true,
        "languagepacks": true, "logs": true,
        "workspaceStorage": true, // СОХРАНЯЕМ КОНТЕКСТ КЛИЕНТА
        "globalStorage": true,    // СОХРАНЯЕМ КОНТЕКСТ КЛИЕНТА
    }
    parts := strings.Split(path, string(filepath.Separator))
    for _, part := range parts {
        if skipDirs[part] { return true }
    }
    if strings.HasSuffix(path, ".sock") || strings.HasSuffix(path, "-journal") {
        return true
    }
    return false
}
```

Note: the map literally contains `workspaceStorage` and `globalStorage`
(with value `true`, i.e. *skip*), even though the inline comments say these
two directories are kept to preserve the client's context. -/

/-- The names in the `skipDirs` map literal, in source order. -/
def skipDirNames : List Path :=
  ["Cache".data, "CachedData".data, "Code Cache".data,
   "languagepacks".data, "logs".data,
   "workspaceStorage".data, "globalStorage".data]

/-- The `skipDirs` map lookup: `true` exactly on the names of the literal. -/
def skipDirs (part : Path) : Bool :=
  skipDirNames.contains part

/-- `shouldSkip`, the entry filter of the current revision. -/
def shouldSkip (path : Path) : Bool :=
  if (splitSep path).any skipDirs then true
  else if ".sock".data.isSuffixOf path ∨ "-journal".data.isSuffixOf path then
    true
  else false

/-! ## The archive decoder `unzipDest` (identical in all three revisions)

```go
func unzipDest(reader io.Reader, dest string) error {
    os.MkdirAll(dest, 0755)            // error ignored
    buf := new(bytes.Buffer)
    buf.ReadFrom(reader)
    r, err := zip.NewReader(bytes.NewReader(buf.Bytes()), int64(buf.Len()))
    if err != nil { return err }
    for _, f := range r.File {
        fpath := filepath.Join(dest, f.Name)
        // Защита от ZipSlip
        if !strings.HasPrefix(fpath, filepath.Clean(dest)+string(os.PathSeparator)) {
            return fmt.Errorf("недопустимый путь файла: %s", fpath)
        }
        if f.FileInfo().IsDir() { os.MkdirAll(fpath, f.Mode()); continue }
        parentDir := filepath.Dir(fpath)
        if err := os.MkdirAll(parentDir, 0755); err != nil { return err }
        outFile, err := os.OpenFile(fpath, os.O_WRONLY|os.O_CREATE|os.O_TRUNC, f.Mode())
        if err != nil { return err }
        rc, err := f.Open()
        if err != nil { outFile.Close(); return err }
        _, err = io.Copy(outFile, rc)
        outFile.Close(); rc.Close()
        if err != nil { return err }
    }
    return nil
}
```

The decoder's filesystem effects are recorded as a list of `FSOp`.
Decode-time I/O failures (the `os.OpenFile`, `f.Open` and `io.Copy` error
branches) are modelled as explicit error fields on the entry, `none`
meaning the operation succeeds. -/

/-- One entry of the archive stream, together with the outcome of the
fallible decode-time operations on it. -/
structure ZipEntry where
  /-- `f.Name`: the entry's path inside the archive. -/
  name : Path
  /-- `f.FileInfo().IsDir()`. -/
  isDir : Bool := false
  /-- The entry's decompressed payload. -/
  content : Path := []
  /-- Encoder side: whether the header was built from a real
  `fs.FileInfo` (`d.Info()` succeeded), as opposed to a nil one. -/
  fromInfo : Bool := true
  /-- Decode: outcome of `os.OpenFile` on the target path. -/
  osOpenErr : Option String := none
  /-- Decode: outcome of `f.Open()` on the compressed entry. -/
  zipOpenErr : Option String := none
  /-- Decode: outcome of `io.Copy` into the target file. -/
  copyErr : Option String := none
  deriving DecidableEq, Repr

/-- A filesystem mutation performed by the decoder. -/
inductive FSOp where
  /-- `os.MkdirAll p` — create `p` and missing ancestors (idempotent). -/
  | mkdirAll (p : Path)
  /-- `os.OpenFile(p, O_WRONLY|O_CREATE|O_TRUNC, mode)` — create or
  truncate the file at `p`. -/
  | openTrunc (p : Path)
  /-- a successful `io.Copy` writing `content` into the open file at `p`. -/
  | write (p : Path) (content : Path)
  deriving DecidableEq, Repr

/-- The error message of the ZipSlip branch
(`fmt.Errorf("недопустимый путь файла: %s", fpath)`). -/
def travMsg (fpath : Path) : String :=
  "недопустимый путь файла: " ++ String.mk fpath

/-- The ZipSlip guard of `unzipDest`, exactly as coded:
`strings.HasPrefix(fpath, filepath.Clean(dest)+string(os.PathSeparator))`
where `fpath = filepath.Join(dest, f.Name)`. -/
def slipCheck (dest : Path) (name : Path) : Bool :=
  (cleanL dest ++ ['/']).isPrefixOf (goJoin2 dest name)

/-- Decode one archive entry: the filesystem operations performed and the
error returned, if any. -/
def unzipEntry (dest : Path) (e : ZipEntry) : List FSOp × Option String :=
  let fpath := goJoin2 dest e.name
  if ¬ slipCheck dest e.name then ([], some (travMsg fpath))
  else if e.isDir then ([.mkdirAll fpath], none)
  else
    let parentDir := goDir fpath
    match e.osOpenErr with
    | some er => ([.mkdirAll parentDir], some er)
    | none =>
      match e.zipOpenErr with
      | some er => ([.mkdirAll parentDir, .openTrunc fpath], some er)
      | none =>
        match e.copyErr with
        | some er => ([.mkdirAll parentDir, .openTrunc fpath], some er)
        | none =>
          ([.mkdirAll parentDir, .openTrunc fpath, .write fpath e.content],
           none)

/-- The decoder's entry loop: left to right, aborting on the first error. -/
def unzipEntries (dest : Path) : List ZipEntry → List FSOp × Option String
  | [] => ([], none)
  | e :: es =>
    match unzipEntry dest e with
    | (ops, some er) => (ops, some er)
    | (ops, none) =>
      let (ops2, r) := unzipEntries dest es
      (ops ++ ops2, r)

/-- `unzipDest`.  `mkdirDestErr` is the (discarded) result of the initial
`os.MkdirAll(dest, 0755)`; `parsed` is the result of buffering the whole
stream and handing it to `zip.NewReader` — either a parse error or the
entry list of the archive's central directory. -/
def unzipDest (dest : Path) (mkdirDestErr : Option String)
    (parsed : Except String (List ZipEntry)) : List FSOp × Option String :=
  match parsed with
  | .error er => ([.mkdirAll dest], some er)
  | .ok es =>
    let (ops, r) := unzipEntries dest es
    (.mkdirAll dest :: ops, r)

/-! ## Source trees and the archive encoders

A source directory tree is modelled as an `FTree`.  Each file carries the
outcomes of the fallible filesystem operations the encoders perform on it
(`d.Info()` / the `fs.FileInfo` argument, `os.Open`, `io.Copy`); each
directory carries the outcome of reading its child list.  `none` means the
operation succeeds.  Children are listed in the order the walk visits them
(`filepath.Walk`/`WalkDir` visit entries in lexical order; the model takes
the visit order as given). -/

/-- A file of the source tree, with the outcomes of the operations the
encoders perform on it. -/
structure FileNode where
  /-- the file's bytes. -/
  content : Path := []
  /-- outcome of `d.Info()` (stat). -/
  infoErr : Option String := none
  /-- outcome of `os.Open`. -/
  openErr : Option String := none
  /-- outcome of `io.Copy` from the opened file. -/
  readErr : Option String := none
  deriving DecidableEq, Repr

/-- A node of the source tree. -/
inductive FTree where
  | file (name : Path) (fi : FileNode)
  /-- `readDirErr` is the outcome of listing the directory's children;
  when it is `some e` the walk reports `e` at this directory and the
  children are not visited. -/
  | dir (name : Path) (readDirErr : Option String) (children : List FTree)
  deriving Repr

/-! ### `addFolderToZip` (current revision)

```go
func addFolderToZip(folderPath string, zipPath string, archive *zip.Writer) error {
    return filepath.WalkDir(folderPath, func(path string, d os.DirEntry, err error) error {
        if err != nil { return err }
        relPath, _ := filepath.Rel(folderPath, path)
        entryName := filepath.Join(zipPath, relPath)
        if shouldSkip(relPath) {
            if d.IsDir() { return filepath.SkipDir }
            return nil
        }
        if d.IsDir() { return nil }
        info, _ := d.Info()                    // error discarded
        header, _ := zip.FileInfoHeader(info)  // error discarded
        header.Name = filepath.ToSlash(entryName)
        header.Method = zip.Deflate
        writer, err := archive.CreateHeader(header)
        if err != nil { return err }
        file, err := os.Open(path)
        if err != nil { return err }
        defer file.Close()
        _, err = io.Copy(writer, file)
        return err
    })
}
```

`walkNode rel t` models `filepath.WalkDir` running the callback over the
subtree `t`, where `rel` is the path of `t`'s parent relative to
`folderPath` as a component list.  The pair returned is (zip entries fully
written, error that aborted the walk, if any).  `filepath.SkipDir` on a
skipped directory means its subtree contributes nothing and the walk
continues; a walk error (`err != nil`, reported for a directory whose
child list cannot be read) aborts the whole walk. -/

/-- The zip entry `addFolderToZip` writes for the file `fi` at relative
component path `rp` (`header.Name = filepath.ToSlash(entryName)`; on the
Unix model `ToSlash` is the identity). -/
def mkEntry (zipPath : Path) (rp : List Path) (fi : FileNode) : ZipEntry :=
  { name := goJoin2 zipPath (renderRel rp)
    content := fi.content
    fromInfo := fi.infoErr = none }

mutual
/-- The `WalkDir` callback applied to one subtree. -/
def walkNode (zipPath : Path) (rel : List Path) :
    FTree → List ZipEntry × Option String
  | .file n fi =>
    let rp := rel ++ [n]
    if shouldSkip (renderRel rp) then ([], none)
    else
      match fi.openErr with
      | some e => ([], some e)
      | none =>
        match fi.readErr with
        | some e => ([], some e)
        | none => ([mkEntry zipPath rp fi], none)
  | .dir n readDirErr children =>
    let rp := rel ++ [n]
    if shouldSkip (renderRel rp) then ([], none)   -- filepath.SkipDir
    else
      match readDirErr with
      | some e => ([], some e)   -- callback invoked again with err ≠ nil
      | none => walkList zipPath rp children
/-- The walk over a directory's children, left to right, aborting on the
first error. -/
def walkList (zipPath : Path) (rel : List Path) :
    List FTree → List ZipEntry × Option String
  | [] => ([], none)
  | t :: ts =>
    match walkNode zipPath rel t with
    | (es, some e) => (es, some e)
    | (es, none) =>
      let (es2, r) := walkList zipPath rel ts
      (es ++ es2, r)
end

/-- `addFolderToZip folderPath zipPath archive` on a source directory with
child list `children` (and child-listing outcome `readDirErr`).  The walk
first visits `folderPath` itself, whose relative path is `"."`:
`shouldSkip "."` is false and the node is a directory, so the callback
returns nil and the walk proceeds to the children. -/
def addFolderToZip (zipPath : Path) (readDirErr : Option String)
    (children : List FTree) : List ZipEntry × Option String :=
  if shouldSkip (renderRel []) then ([], none)
  else
    match readDirErr with
    | some e => ([], some e)
    | none => walkList zipPath [] children

/-! ### `zipSource` (legacy revisions; also present, unused, in the
current one)

```go
func zipSource(source string) (*bytes.Buffer, error) {
    buf := new(bytes.Buffer)
    w := zip.NewWriter(buf)
    walker := func(path string, info os.FileInfo, err error) error {
        if err != nil { return err }
        if info.IsDir() { return nil }
        file, err := os.Open(path)
        if err != nil { return err }
        defer file.Close()
        f, err := w.Create(path[len(source):])
        if err != nil { return err }
        _, err = io.Copy(f, file)
        return err
    }
    err := filepath.Walk(source, walker)
    if err != nil { return nil, err }
    err = w.Close()
    if err != nil { return nil, err }
    return buf, nil
}
```

`filepath.Walk` (unlike `WalkDir`) stats every entry before invoking the
callback; a stat failure is delivered as `err != nil` for that entry, so
here a file's `infoErr` aborts the walk.  There is no filter, and the entry
name is `path[len(source):]`, i.e. `"/" ++ relative-path`. -/

mutual
/-- The `filepath.Walk` callback of `zipSource` applied to one subtree. -/
def zwalkNode (rel : List Path) : FTree → List ZipEntry × Option String
  | .file n fi =>
    let rp := rel ++ [n]
    match fi.infoErr with
    | some e => ([], some e)   -- err != nil at the callback
    | none =>
      match fi.openErr with
      | some e => ([], some e)
      | none =>
        match fi.readErr with
        | some e => ([], some e)
        | none =>
          ([{ name := '/' :: renderSep rp, content := fi.content }], none)
  | .dir n readDirErr children =>
    match readDirErr with
    | some e => ([], some e)
    | none => zwalkList (rel ++ [n]) children
/-- `zipSource`'s walk over a directory's children. -/
def zwalkList (rel : List Path) : List FTree → List ZipEntry × Option String
  | [] => ([], none)
  | t :: ts =>
    match zwalkNode rel t with
    | (es, some e) => (es, some e)
    | (es, none) =>
      let (es2, r) := zwalkList rel ts
      (es ++ es2, r)
end

/-- `zipSource` on a source directory with child list `children`: a buffer
holding the finished archive (modelled by its entry list), or the first
error of the walk. -/
def zipSource (readDirErr : Option String) (children : List FTree) :
    Except String (List ZipEntry) :=
  match readDirErr with
  | some e => .error e
  | none =>
    match zwalkList [] children with
    | (_, some e) => .error e
    | (es, none) => .ok es

/-! ## The backup manager `backupDir` (identical in all three revisions)

```go
func backupDir(path string) error {
    if _, err := os.Stat(path); os.IsNotExist(err) { return nil }
    timestamp := time.Now().Format("20060102-150405")
    dest := path + "_backup_" + timestamp
    fmt.Printf("Создание бэкапа текущих настроек в: %s\n", dest)
    return os.Rename(path, dest)
}
```

`time.Format("20060102-150405")` is Go's reference-time layout for
`YYYYMMDD-HHMMSS`: the year zero-padded to four digits, then month, day,
hour, minute, second each zero-padded to two.  The model formats by digit
extraction, which agrees with Go for years below 10000 (the layout `2006`
prints longer years in full; no such timestamp occurs). -/

/-- A wall-clock timestamp at second resolution (`time.Now()`). -/
structure Timestamp where
  year : Nat
  month : Nat
  day : Nat
  hour : Nat
  minute : Nat
  second : Nat
  deriving DecidableEq, Repr

/-- A number zero-padded to two digits (layout verbs `01 02 15 04 05`). -/
def pad2 (n : Nat) : Path :=
  [Nat.digitChar (n / 10 % 10), Nat.digitChar (n % 10)]

/-- A number zero-padded to four digits (layout verb `2006`). -/
def pad4 (n : Nat) : Path :=
  [Nat.digitChar (n / 1000 % 10), Nat.digitChar (n / 100 % 10),
   Nat.digitChar (n / 10 % 10), Nat.digitChar (n % 10)]

/-- `t.Format("20060102-150405")`. -/
def formatTS (t : Timestamp) : Path :=
  pad4 t.year ++ pad2 t.month ++ pad2 t.day ++ '-' ::
    (pad2 t.hour ++ pad2 t.minute ++ pad2 t.second)

/-- A filesystem mutation performed by the client outside the decoder. -/
inductive ClientAction where
  /-- a successful `os.Rename src dst`. -/
  | rename (src dst : Path)
  /-- a decoder operation (see `FSOp`). -/
  | fs (op : FSOp)
  deriving DecidableEq, Repr

/-- `backupDir path`.  `statNotExist` is whether `os.IsNotExist` holds of
the `os.Stat(path)` error; `renameErr` is the outcome of `os.Rename` if it
is reached (a failed rename mutates nothing).  Returns the filesystem
actions performed and the error returned. -/
def backupDir (path : Path) (statNotExist : Bool) (renameErr : Option String)
    (now : Timestamp) : List ClientAction × Option String :=
  if statNotExist then ([], none)
  else
    let dest := path ++ "_backup_".data ++ formatTS now
    match renameErr with
    | some e => ([], some e)
    | none => ([.rename path dest], none)

/-! ## Client orchestration

Current revision (`src/main.go`, first `runClient`):

```go
func runClient(serverIP string, port string) {
    vscodePath, err := getVSCodePath()
    if err != nil { ...; return }
    resp, err := http.Get(url)
    if err != nil { ...; return }
    defer resp.Body.Close()
    if resp.StatusCode != http.StatusOK { ...; return }
    // СОЗДАНИЕ БЭКАПА
    // Если бэкап не удается - ОСТАНАВЛИВАЕМ выполнение.
    // Мы не хотим перезаписывать настройки без страховки.
    if err := backupDir(vscodePath); err != nil {
        fmt.Printf("❌ ОШИБКА БЭКАПА: %v\n", err)
        ...
        return
    }
    if err := unzipDest(resp.Body, vscodePath); err != nil { ...; return }
}
```

Legacy revision (`src/main.go`, second `runClient`, and
`src/unnamed/part_000`): identical except for the backup step —

```go
    if err := backupDir(vscodePath); err != nil {
        fmt.Printf("Внимание: не удалось создать бэкап: %v\n", err)
    }
    fmt.Println("Распаковка полученных настроек...")
    if err := unzipDest(resp.Body, vscodePath); err != nil { ...; return }
```

— the backup error is logged and execution continues into the decoder. -/

/-- The environment of one client run: the outcome of each external
operation the client performs, in program order. -/
structure ClientEnv where
  /-- `getVSCodePath()`: the resolved destination ConfigRoot, or an error. -/
  pathResult : Except String Path
  /-- `http.Get`: connection error, if any. -/
  connectErr : Option String := none
  /-- `resp.StatusCode`. -/
  status : Nat := 200
  /-- the response body as seen by `zip.NewReader` inside `unzipDest`. -/
  body : Except String (List ZipEntry) := .ok []
  /-- `os.Stat` on the destination: `os.IsNotExist` of its error. -/
  destStatNotExist : Bool := false
  /-- outcome of `os.Rename` in `backupDir`, if reached. -/
  renameErr : Option String := none
  /-- `time.Now()` in `backupDir`. -/
  now : Timestamp := ⟨2026, 1, 1, 0, 0, 0⟩
  /-- outcome of the initial `os.MkdirAll(dest)` in `unzipDest`. -/
  mkdirDestErr : Option String := none

/-- What a client run did: the filesystem actions it performed, and whether
the Archive Decoder (`unzipDest`) was invoked at all. -/
structure ClientRun where
  actions : List ClientAction
  unzipCalled : Bool
  deriving DecidableEq, Repr

/-- `runClient` of the current revision. -/
def runClient (env : ClientEnv) : ClientRun :=
  match env.pathResult with
  | .error _ => ⟨[], false⟩
  | .ok vscodePath =>
    match env.connectErr with
    | some _ => ⟨[], false⟩
    | none =>
      if env.status ≠ 200 then ⟨[], false⟩
      else
        match backupDir vscodePath env.destStatNotExist env.renameErr env.now with
        | (acts, some _) => ⟨acts, false⟩   -- ОСТАНАВЛИВАЕМ: abort, no decode
        | (acts, none) =>
          let (ops, _) := unzipDest vscodePath env.mkdirDestErr env.body
          ⟨acts ++ ops.map .fs, true⟩

/-- `runClient` of the legacy revision: a backup failure is logged and the
run proceeds into `unzipDest` regardless. -/
def runClientLegacy (env : ClientEnv) : ClientRun :=
  match env.pathResult with
  | .error _ => ⟨[], false⟩
  | .ok vscodePath =>
    match env.connectErr with
    | some _ => ⟨[], false⟩
    | none =>
      if env.status ≠ 200 then ⟨[], false⟩
      else
        let (acts, _) := backupDir vscodePath env.destStatNotExist
          env.renameErr env.now
        let (ops, _) := unzipDest vscodePath env.mkdirDestErr env.body
        ⟨acts ++ ops.map .fs, true⟩

/-! ## Server orchestration (the `/sync` handler)

Current revision (`src/main.go`, first `runServer`): streams the archive
straight into the response —

```go
    w.Header().Set("Content-Type", "application/zip")
    ...
    archive := zip.NewWriter(w)
    defer archive.Close()
    userDir := filepath.Join(os.Getenv("APPDATA"), "Code", "User")
    addFolderToZip(userDir, "User", archive)        // error discarded
    extDir := filepath.Join(os.Getenv("USERPROFILE"), ".vscode", "extensions")
    addFolderToZip(extDir, "extensions", archive)   // error discarded
```

The handler never writes a non-200 status: both `addFolderToZip` return
values are dropped, and the implicit status of the first body write (or of
the handler returning) is 200.

Legacy revisions (`src/main.go`, second `runServer`; `part_000`): buffer
first —

```go
    zipData, err := zipSource(vscodePath)
    if err != nil {
        http.Error(w, err.Error(), http.StatusInternalServerError)
        return
    }
    w.Header().Set("Content-Type", "application/zip")
    ...
    w.Write(zipData.Bytes())
```
-/

/-- A source root directory handed to an encoder. -/
structure RootDir where
  readDirErr : Option String := none
  children : List FTree := []

/-- An HTTP response: status code, and either an error text written by
`http.Error` or the archive stream. -/
structure HTTPResponse where
  status : Nat
  body : Sum String (List ZipEntry)
  deriving DecidableEq, Repr

/-- The `/sync` handler of the current (streaming) revision, on a GET
request. -/
def syncHandlerStreaming (user ext : RootDir) : HTTPResponse :=
  let (es1, _) := addFolderToZip "User".data user.readDirErr user.children
  let (es2, _) :=
    addFolderToZip "extensions".data ext.readDirErr ext.children
  ⟨200, .inr (es1 ++ es2)⟩

/-- The `/sync` handler of the legacy (buffered) revisions, on a GET
request. -/
def syncHandlerBuffered (root : RootDir) : HTTPResponse :=
  match zipSource root.readDirErr root.children with
  | .error e => ⟨500, .inl e⟩
  | .ok es => ⟨200, .inr es⟩

/-! ## Specification-side notions

These definitions render the spec's vocabulary ("lies strictly inside the
destination root after path normalization", "non-filtered file",
"reproduces with identical contents"), to be compared with the code's
behaviour. -/

/-- Spec: the path `p` (already normalized — it is produced by
`filepath.Join`) lies strictly inside the root after path normalization:
the component list of the cleaned root is a prefix of `p`'s component
list, and `p` is not the root itself. -/
def strictlyInside (p root : Path) : Bool :=
  (splitSep (cleanL root)).isPrefixOf (splitSep p) && p != cleanL root

/-- A legal filesystem entry name: non-empty, contains no separator, and
is neither `.` nor `..`. -/
def validName (n : Path) : Bool :=
  !n.isEmpty && !n.contains '/' && n != ['.'] && n != ['.', '.']

/-- The name of a tree node. -/
def nodeNameOf : FTree → Path
  | .file n _ => n
  | .dir n _ _ => n

mutual
/-- The source tree is an honest filesystem: legal sibling-unique names
and no I/O failures (`d.Info()` outcomes are unconstrained — the encoder
ignores them). -/
def treeOKb : FTree → Bool
  | .file n fi => validName n && fi.openErr == none && fi.readErr == none
  | .dir n rd cs =>
    validName n && rd == none
      && decide (cs.map nodeNameOf |>.Nodup) && treeListOKb cs
/-- `treeOKb` over a child list. -/
def treeListOKb : List FTree → Bool
  | [] => true
  | t :: ts => treeOKb t && treeListOKb ts
end

mutual
/-- All files of a subtree, keyed by component path relative to the
subtree's parent (so each path starts with the node's own name). -/
def filesOfN : FTree → List (List Path × FileNode)
  | .file n fi => [([n], fi)]
  | .dir n _ cs => (filesListN cs).map (fun p => (n :: p.1, p.2))
/-- `filesOfN` over a child list, in walk order. -/
def filesListN : List FTree → List (List Path × FileNode)
  | [] => []
  | t :: ts => filesOfN t ++ filesListN ts
end

/-- Spec: a file at component path `suf` below the walk position `rel` is
*non-filtered* (transferred) iff no node on the way down matches the entry
filter: `shouldSkip` rejects none of the relative paths
`rel ++ [c₁]`, `rel ++ [c₁, c₂]`, …  The walk reaches the file exactly
under this condition (a matching directory is pruned with `SkipDir`). -/
def keptRel (rel : List Path) : List Path → Bool
  | [] => true
  | c :: suf => !shouldSkip (renderRel (rel ++ [c])) && keptRel (rel ++ [c]) suf

/-- Interpret a decoder operation on a filesystem modelled as an
association list from path to contents, newest first. -/
def applyOp (fs : List (Path × Path)) : FSOp → List (Path × Path)
  | .mkdirAll _ => fs
  | .openTrunc p => (p, []) :: fs
  | .write p c => (p, c) :: fs

/-- The contents at `p` after running the decoder's operations on an
initially empty destination. -/
def fileState (ops : List FSOp) (p : Path) : Option Path :=
  (ops.foldl applyOp []).lookup p

/-- The operation block `unzipEntry` performs for a well-formed file entry
(guard passed, not a directory, no decode-time I/O failure). -/
def decodeOps (dest : Path) (e : ZipEntry) : List FSOp :=
  [.mkdirAll (goDir (goJoin2 dest e.name)),
   .openTrunc (goJoin2 dest e.name),
   .write (goJoin2 dest e.name) e.content]

/-- The destinations the program actually decodes into: after cleaning, at
least one real component remains (rules out `""`, `"."`, `"/"`, for which
the decoder's string-prefix guard rejects every entry). -/
def destOK (dest : Path) : Bool :=
  !(cleanComps (dest.head? = some '/') dest).isEmpty

/-! ## Concrete inputs used by witnesses and counterexamples -/

/-- The destination root of the worked examples:
`~/.config/Code/User` of user `u` on Linux. -/
def destW : Path := "/home/u/.config/Code/User".data

/-- A benign archive entry. -/
def entryW : ZipEntry := { name := "settings.json".data, content := "{}".data }

/-- The crafted ZipSlip entry of the spec's test scenario. -/
def evilEntry : ZipEntry := { name := "../../evil".data, content := "x".data }

/-- An entry placed after the crafted one. -/
def afterEntry : ZipEntry := { name := "keybindings.json".data }

/-- The spec's §8 scenario: `settings.json` (10 bytes), `Cache/tmp.bin`
(1000 bytes, abbreviated here), `workspaceStorage/ws1/state.json`
(20 bytes). -/
def scenarioChildren : List FTree :=
  [.file "settings.json".data { content := "0123456789".data },
   .dir "Cache".data none [.file "tmp.bin".data { content := "cache-bytes".data }],
   .dir "workspaceStorage".data none
     [.dir "ws1".data none
       [.file "state.json".data { content := "workspace-state-data".data }]]]

/-- A client environment in which the backup rename fails. -/
def lockedEnv : ClientEnv :=
  { pathResult := .ok destW
    destStatNotExist := false
    renameErr := some "directory locked by Code.exe"
    body := .ok [entryW] }

/-- A server source root whose only file cannot be opened. -/
def unreadableRoot : RootDir :=
  { children := [.file "settings.json".data { openErr := some "permission denied" }] }

end VSSync

namespace VSSync

-- sanity examples (concrete evaluations of the toolkit)
example : cleanL "/a/b/../c".data = "/a/c".data := by decide
example : cleanL "a//b/./c/..".data = "a/b".data := by decide
example : cleanL "".data = ".".data := by decide
example : cleanL "/../x".data = "/x".data := by decide
example : goJoin2 "/home/u/Code/User".data "../../evil".data
    = "/home/u/evil".data := by decide
example : goDir "/a/b/c".data = "/a/b".data := by decide
example : goDir "x".data = ".".data := by decide

-- filter sanity
example : shouldSkip "Cache/tmp.bin".data = true := by decide
example : shouldSkip "settings.json".data = false := by decide
example : shouldSkip "a/b.sock".data = true := by decide
example : shouldSkip "state.vscdb-journal".data = true := by decide
example : shouldSkip "workspaceStorage/ws1/state.json".data = true := by decide
example : shouldSkip ".".data = false := by decide

/-! ## Shared lemmas about the walk and decode loops -/

/-- `splitSep` never returns the empty list of chunks. -/
theorem splitSep_ne_nil (x : Path) : splitSep x ≠ [] := by
  cases x with
  | nil => simp [splitSep]
  | cons c cs =>
    unfold splitSep
    by_cases h : c = '/'
    · simp [h]
    · simp only [if_neg h]
      cases splitSep cs <;> simp

/-- `splitSep` on the empty path. -/
theorem splitSep_nil : splitSep [] = [[]] := rfl

/-- The defining equation of `splitSep` on a cons. -/
theorem splitSep_cons (c : Char) (cs : Path) :
    splitSep (c :: cs) =
      if c = '/' then [] :: splitSep cs
      else
        match splitSep cs with
        | h :: t => (c :: h) :: t
        | [] => [[c]] := rfl

/-- Splitting distributes over a separator occurrence. -/
theorem splitSep_append (a b : Path) :
    splitSep (a ++ '/' :: b) = splitSep a ++ splitSep b := by
  induction a with
  | nil => rw [List.nil_append, splitSep_cons]; simp [splitSep_nil]
  | cons c cs ih =>
    rw [List.cons_append, splitSep_cons, splitSep_cons]
    by_cases h : c = '/'
    · simp [h, ih]
    · simp only [if_neg h]
      rw [ih]
      cases hs : splitSep cs with
      | nil => exact absurd hs (splitSep_ne_nil cs)
      | cons h' t' => simp

/-- Decoding a concatenation whose first half decodes cleanly. -/
theorem unzipEntries_append (dest : Path) (pre rest : List ZipEntry)
    (hpre : (unzipEntries dest pre).2 = none) :
    unzipEntries dest (pre ++ rest) =
      ((unzipEntries dest pre).1 ++ (unzipEntries dest rest).1,
       (unzipEntries dest rest).2) := by
  induction pre with
  | nil => simp [unzipEntries]
  | cons e es ih =>
    simp only [unzipEntries, List.cons_append] at hpre ⊢
    cases hu : unzipEntry dest e with
    | mk ops r =>
      cases r with
      | some er => simp [hu] at hpre
      | none =>
        simp only [hu] at hpre ⊢
        simp only [List.append_eq]
        rw [ih hpre]
        simp

/-- The encoder's walk over a child list: a clean first part followed by a
failing node aborts with that error; the remainder is never visited. -/
theorem walkList_append_abort (zipPath : Path) (rel : List Path)
    (ts1 : List FTree) (t : FTree) (ts2 : List FTree)
    (es es' : List ZipEntry) (e : String)
    (h1 : walkList zipPath rel ts1 = (es, none))
    (h2 : walkNode zipPath rel t = (es', some e)) :
    walkList zipPath rel (ts1 ++ t :: ts2) = (es ++ es', some e) := by
  induction ts1 generalizing es with
  | nil =>
    simp only [walkList] at h1
    cases h1
    simp [walkList, h2]
  | cons t' ts ih =>
    simp only [walkList, List.cons_append] at h1 ⊢
    cases hw : walkNode zipPath rel t' with
    | mk es0 r0 =>
      cases r0 with
      | some er => simp [hw] at h1
      | none =>
        simp only [hw] at h1 ⊢
        cases hl : walkList zipPath rel ts with
        | mk es1 r1 =>
          simp only [hl] at h1
          cases h1
          simp only [List.append_eq]
          rw [ih _ hl]
          simp

/-- `zipSource`'s walk over a child list: same abort discipline. -/
theorem zwalkList_append_abort (rel : List Path)
    (ts1 : List FTree) (t : FTree) (ts2 : List FTree)
    (es es' : List ZipEntry) (e : String)
    (h1 : zwalkList rel ts1 = (es, none))
    (h2 : zwalkNode rel t = (es', some e)) :
    zwalkList rel (ts1 ++ t :: ts2) = (es ++ es', some e) := by
  induction ts1 generalizing es with
  | nil =>
    simp only [zwalkList] at h1
    cases h1
    simp [zwalkList, h2]
  | cons t' ts ih =>
    simp only [zwalkList, List.cons_append] at h1 ⊢
    cases hw : zwalkNode rel t' with
    | mk es0 r0 =>
      cases r0 with
      | some er => simp [hw] at h1
      | none =>
        simp only [hw] at h1 ⊢
        cases hl : zwalkList rel ts with
        | mk es1 r1 =>
          simp only [hl] at h1
          cases h1
          simp only [List.append_eq]
          rw [ih _ hl]
          simp

/-! ## Lemmas about rendering and cleaning component lists

These connect `renderSep`/`splitSep`/`cleanL` on paths whose components
are legal filesystem names, preparing the round-trip theorem. -/

/-- Unfolding of `validName`. -/
theorem validName_iff (c : Path) :
    validName c = true ↔
      (c ≠ [] ∧ '/' ∉ c ∧ c ≠ ['.'] ∧ c ≠ ['.', '.']) := by
  simp [validName, and_assoc]

/-- A separator-free chunk splits to itself. -/
theorem splitSep_single (c : Path) (h : '/' ∉ c) : splitSep c = [c] := by
  induction c with
  | nil => rfl
  | cons ch cs ih =>
    have hch : ch ≠ '/' := fun he => h (he ▸ List.mem_cons_self ch cs)
    have hcs : '/' ∉ cs := fun hm => h (List.mem_cons_of_mem ch hm)
    rw [splitSep_cons, if_neg hch, ih hcs]

/-- `renderSep` of a singleton. -/
theorem renderSep_single (c : Path) : renderSep [c] = c := by
  simp [renderSep]

/-- `renderSep` of a cons with non-empty tail. -/
theorem renderSep_cons (c : Path) (cs : List Path) (h : cs ≠ []) :
    renderSep (c :: cs) = c ++ '/' :: renderSep cs := by
  cases cs with
  | nil => exact absurd rfl h
  | cons d ds => simp [renderSep, List.intersperse]

/-- `renderSep` distributes over append of non-empty lists. -/
theorem renderSep_append (xs ys : List Path) (hx : xs ≠ []) (hy : ys ≠ []) :
    renderSep (xs ++ ys) = renderSep xs ++ '/' :: renderSep ys := by
  induction xs with
  | nil => exact absurd rfl hx
  | cons c cs ih =>
    cases cs with
    | nil =>
      rw [List.singleton_append, renderSep_single, renderSep_cons c ys hy]
    | cons d ds =>
      rw [List.cons_append, renderSep_cons c ((d :: ds) ++ ys) (by simp),
        renderSep_cons c (d :: ds) (by simp), ih (by simp)]
      simp

/-- `splitSep` is a left inverse of `renderSep` on non-empty lists of
separator-free chunks. -/
theorem splitSep_renderSep (cs : List Path) (hne : cs ≠ [])
    (h : ∀ c ∈ cs, '/' ∉ c) : splitSep (renderSep cs) = cs := by
  induction cs with
  | nil => exact absurd rfl hne
  | cons c cs' ih =>
    cases cs' with
    | nil => rw [renderSep_single]; exact splitSep_single c (h c (by simp))
    | cons d ds =>
      rw [renderSep_cons c (d :: ds) (by simp), splitSep_append,
        splitSep_single c (h c (by simp)), ih (by simp)
          (fun x hx => h x (List.mem_cons_of_mem c hx))]
      rfl

/-- `renderSep` of a list headed by a non-empty component starts with that
component's first character. -/
theorem renderSep_head (ch : Char) (ct : Path) (cs : List Path) :
    ∃ rest, renderSep ((ch :: ct) :: cs) = ch :: rest := by
  cases cs with
  | nil => exact ⟨ct, renderSep_single (ch :: ct)⟩
  | cons d ds =>
    exact ⟨ct ++ '/' :: renderSep (d :: ds),
      by rw [renderSep_cons _ _ (by simp)]; rfl⟩

/-- `cleanStep` pushes a legal name. -/
theorem cleanStep_plain (rooted : Bool) (stack : List Path) (c : Path)
    (h1 : c ≠ []) (h2 : c ≠ ['.']) (h3 : c ≠ ['.', '.']) :
    cleanStep rooted stack c = c :: stack := by
  simp [cleanStep, h1, h2, h3]

/-- Folding `cleanStep` over legal names pushes them all. -/
theorem foldl_cleanStep_plain (rooted : Bool) (cs : List Path)
    (h : ∀ c ∈ cs, validName c = true) :
    ∀ stack, cs.foldl (cleanStep rooted) stack = cs.reverse ++ stack := by
  induction cs with
  | nil => intro stack; rfl
  | cons c cs' ih =>
    intro stack
    obtain ⟨h1, _, h2, h3⟩ := (validName_iff c).mp (h c (by simp))
    rw [List.foldl_cons, cleanStep_plain rooted stack c h1 h2 h3,
      ih (fun x hx => h x (List.mem_cons_of_mem c hx))]
    simp

/-- Cleaning the components of a rendered legal path recovers them. -/
theorem cleanComps_renderSep (rooted : Bool) (cs : List Path)
    (hne : cs ≠ []) (h : ∀ c ∈ cs, validName c = true) :
    cleanComps rooted (renderSep cs) = cs := by
  unfold cleanComps
  rw [splitSep_renderSep cs hne
    (fun c hc => ((validName_iff c).mp (h c hc)).2.1),
    foldl_cleanStep_plain rooted cs h []]
  simp

/-- `cleanL` fixes rendered legal relative paths. -/
theorem cleanL_renderSep (cs : List Path) (hne : cs ≠ [])
    (h : ∀ c ∈ cs, validName c = true) :
    cleanL (renderSep cs) = renderSep cs := by
  obtain ⟨c, cs', rfl⟩ : ∃ c cs', cs = c :: cs' := by
    cases cs with
    | nil => exact absurd rfl hne
    | cons c cs' => exact ⟨c, cs', rfl⟩
  obtain ⟨ch, ct, rfl⟩ : ∃ ch ct, c = ch :: ct := by
    cases c with
    | nil => exact absurd rfl (((validName_iff _).mp (h _ (by simp))).1)
    | cons ch ct => exact ⟨ch, ct, rfl⟩
  obtain ⟨rest, hrest⟩ := renderSep_head ch ct cs'
  have hch : ch ≠ '/' := by
    intro he
    subst he
    exact ((validName_iff ('/' :: ct)).mp
      (h ('/' :: ct) (List.mem_cons_self _ _))).2.1 (List.mem_cons_self _ _)
  have hsne : renderSep ((ch :: ct) :: cs') ≠ [] := by simp [hrest]
  have hroot' : ¬((renderSep ((ch :: ct) :: cs')).head? = some '/') := by
    simp [hrest, hch]
  simp only [cleanL, if_neg hsne]
  rw [decide_eq_false hroot', if_neg hroot',
    cleanComps_renderSep false _ hne h, if_neg hsne]

/-- `cleanStep` never pushes an empty component. -/
theorem cleanStep_ne_nil (rooted : Bool) (stack : List Path) (c : Path)
    (hs : ∀ x ∈ stack, x ≠ []) : ∀ y ∈ cleanStep rooted stack c, y ≠ [] := by
  intro y hy
  unfold cleanStep at hy
  by_cases h1 : c = [] ∨ c = ['.']
  · rw [if_pos h1] at hy; exact hs y hy
  · rw [if_neg h1] at hy
    by_cases h2 : c = ['.', '.']
    · rw [if_pos h2] at hy
      cases stack with
      | nil =>
        cases hr : rooted with
        | true => simp [hr] at hy
        | false => simp [hr] at hy; simp [hy]
      | cons top rest =>
        have hy' : y ∈ if top = ['.', '.'] then c :: top :: rest else rest := hy
        by_cases h3 : top = ['.', '.']
        · rw [if_pos h3] at hy'
          rcases List.mem_cons.mp hy' with hc | hc
          · subst hc; subst h2; simp
          · exact hs y hc
        · rw [if_neg h3] at hy'; exact hs y (List.mem_cons_of_mem top hy')
    · rw [if_neg h2] at hy
      rcases List.mem_cons.mp hy with hc | hc
      · subst hc; exact (not_or.mp h1).1
      · exact hs y hc

/-- The cleaning fold preserves non-emptiness of components. -/
theorem foldl_cleanStep_ne_nil (rooted : Bool) (l : List Path) :
    ∀ stack, (∀ x ∈ stack, x ≠ []) →
      ∀ x ∈ l.foldl (cleanStep rooted) stack, x ≠ [] := by
  induction l with
  | nil => intro stack hs x hx; exact hs x hx
  | cons c cs ih =>
    intro stack hs x hx
    exact ih (cleanStep rooted stack c) (cleanStep_ne_nil rooted stack c hs)
      x hx

/-- Every component of a cleaned path is non-empty. -/
theorem cleanComps_ne_nil (rooted : Bool) (s : Path) :
    ∀ x ∈ cleanComps rooted s, x ≠ [] := by
  intro x hx
  unfold cleanComps at hx
  rw [List.mem_reverse] at hx
  exact foldl_cleanStep_ne_nil rooted (splitSep s) [] (by simp) x hx

/-- An acceptable destination is a non-empty string. -/
theorem destOK_ne_nil (dest : Path) (h : destOK dest = true) : dest ≠ [] := by
  intro he
  subst he
  exact absurd h (by decide)

/-- `renderSep` of non-empty components is non-empty. -/
theorem renderSep_ne_nil (cs : List Path) (hne : cs ≠ [])
    (h : ∀ x ∈ cs, x ≠ []) : renderSep cs ≠ [] := by
  obtain ⟨c, ct, rfl⟩ : ∃ c ct, cs = c :: ct := by
    cases cs with
    | nil => exact absurd rfl hne
    | cons c ct => exact ⟨c, ct, rfl⟩
  obtain ⟨ch, cct, rfl⟩ : ∃ ch cct, c = ch :: cct := by
    cases c with
    | nil => exact absurd rfl (h [] (by simp))
    | cons ch cct => exact ⟨ch, cct, rfl⟩
  obtain ⟨rest, hrest⟩ := renderSep_head ch cct ct
  simp [hrest]

/-- Cleaning a path extended by a rendered run of legal names appends
those names to the cleaned components. -/
theorem cleanComps_append_plain (rooted : Bool) (a : Path) (cs : List Path)
    (hne : cs ≠ []) (h : ∀ c ∈ cs, validName c = true) :
    cleanComps rooted (a ++ '/' :: renderSep cs) = cleanComps rooted a ++ cs := by
  unfold cleanComps
  rw [splitSep_append, splitSep_renderSep cs hne
      (fun c hc => ((validName_iff c).mp (h c hc)).2.1),
    List.foldl_append, foldl_cleanStep_plain rooted cs h _]
  simp [List.reverse_append]

/-- A rendered run of legal names starts with a non-separator character. -/
theorem renderSep_valid_head (cs : List Path) (hne : cs ≠ [])
    (h : ∀ c ∈ cs, validName c = true) :
    ∃ ch rest, renderSep cs = ch :: rest ∧ ch ≠ '/' := by
  obtain ⟨c, ct, rfl⟩ : ∃ c ct, cs = c :: ct := by
    cases cs with
    | nil => exact absurd rfl hne
    | cons c ct => exact ⟨c, ct, rfl⟩
  obtain ⟨ch, cct, rfl⟩ : ∃ ch cct, c = ch :: cct := by
    cases c with
    | nil => exact absurd rfl (((validName_iff []).mp (h [] (by simp))).1)
    | cons ch cct => exact ⟨ch, cct, rfl⟩
  obtain ⟨rest, hrest⟩ := renderSep_head ch cct ct
  refine ⟨ch, rest, hrest, ?_⟩
  intro he
  subst he
  exact ((validName_iff ('/' :: cct)).mp
    (h ('/' :: cct) (List.mem_cons_self _ _))).2.1 (List.mem_cons_self _ _)

/-- `filepath.Join` of an acceptable destination with a rendered run of
legal names: the cleaned destination followed by the run, verbatim. -/
theorem goJoin2_dest (dest : Path) (cs : List Path)
    (hdest : destOK dest = true) (hne : cs ≠ [])
    (h : ∀ c ∈ cs, validName c = true) :
    goJoin2 dest (renderSep cs) = cleanL dest ++ '/' :: renderSep cs := by
  have hdne : dest ≠ [] := destOK_ne_nil dest hdest
  obtain ⟨ch, rrest, hr1, hr2⟩ := renderSep_valid_head cs hne h
  have hrne : renderSep cs ≠ [] := by simp [hr1]
  rw [goJoin2, if_neg hdne, if_neg hrne]
  obtain ⟨d, dt, rfl⟩ : ∃ d dt, dest = d :: dt := by
    cases dest with
    | nil => exact absurd rfl hdne
    | cons d dt => exact ⟨d, dt, rfl⟩
  have hsne : (d :: dt) ++ '/' :: renderSep cs ≠ [] := by simp
  simp only [cleanL, if_neg hsne, if_neg (show (d :: dt : Path) ≠ [] by simp),
    List.cons_append, List.head?_cons]
  rw [show d :: (dt ++ '/' :: renderSep cs) = (d :: dt) ++ '/' :: renderSep cs
      from rfl,
    cleanComps_append_plain _ (d :: dt) cs hne h]
  have hDne : cleanComps (decide (some d = some '/')) (d :: dt) ≠ [] := by
    unfold destOK at hdest
    simp only [List.head?_cons] at hdest
    simpa using hdest
  have hrD : renderSep (cleanComps (decide (some d = some '/')) (d :: dt)) ≠ [] :=
    renderSep_ne_nil _ hDne (cleanComps_ne_nil _ _)
  rw [renderSep_append _ cs hDne hne]
  by_cases hd : some d = some ('/' : Char)
  · rw [if_pos hd, if_pos hd]
    simp
  · rw [if_neg hd, if_neg hd, if_neg hrD,
      if_neg (show renderSep (cleanComps (decide (some d = some '/')) (d :: dt))
          ++ '/' :: renderSep cs ≠ [] by simp [hrD])]
    simp

/-- The decoder's ZipSlip guard accepts an entry whose name is a rendered
run of legal names, for any acceptable destination. -/
theorem slipCheck_renderSep (dest : Path) (cs : List Path)
    (hdest : destOK dest = true) (hne : cs ≠ [])
    (h : ∀ c ∈ cs, validName c = true) :
    slipCheck dest (renderSep cs) = true := by
  unfold slipCheck
  rw [goJoin2_dest dest cs hdest hne h]
  exact List.isPrefixOf_iff_prefix.mpr ⟨renderSep cs, by simp⟩

/-- A single legal name is an acceptable destination. -/
theorem destOK_of_validName (z : Path) (h : validName z = true) :
    destOK z = true := by
  obtain ⟨h1, h2, h3, h4⟩ := (validName_iff z).mp h
  unfold destOK cleanComps
  rw [splitSep_single z h2]
  simp [cleanStep_plain _ _ _ h1 h3 h4, h1]

/-- `filepath.Clean` fixes a single legal name. -/
theorem cleanL_validName (z : Path) (h : validName z = true) :
    cleanL z = z := by
  have hr := renderSep_single z
  conv_lhs => rw [← hr]
  rw [cleanL_renderSep [z] (by simp) (by simpa using h), hr]

/-! ## Characterization of the streaming encoder's walk

On an honest source tree the walk never fails, and its output is exactly
one entry per non-filtered file, in walk order. -/

mutual
/-- `walkNode` on an honest subtree: the entries of its non-filtered
files, and no error. -/
theorem walkNode_eq (zipPath : Path) (rel : List Path) (t : FTree)
    (ht : treeOKb t = true) :
    walkNode zipPath rel t =
      (((filesOfN t).filter (fun p => keptRel rel p.1)).map
        (fun p => mkEntry zipPath (rel ++ p.1) p.2), none) := by
  cases t with
  | file n fi =>
    simp only [treeOKb, Bool.and_eq_true, beq_iff_eq] at ht
    obtain ⟨⟨hv, ho⟩, hr⟩ := ht
    cases hskip : shouldSkip (renderRel (rel ++ [n])) with
    | true => simp [walkNode, hskip, filesOfN, keptRel]
    | false => simp [walkNode, hskip, ho, hr, filesOfN, keptRel]
  | dir n rd cs =>
    simp only [treeOKb, Bool.and_eq_true, beq_iff_eq,
      decide_eq_true_eq] at ht
    obtain ⟨⟨⟨hv, hrd⟩, hnd⟩, hts⟩ := ht
    subst hrd
    cases hskip : shouldSkip (renderRel (rel ++ [n])) with
    | true =>
      have hfil : (filesOfN (.dir n none cs)).filter
          (fun p => keptRel rel p.1) = [] := by
        rw [List.filter_eq_nil_iff]
        intro p hp
        simp only [filesOfN, List.mem_map] at hp
        obtain ⟨q, _, rfl⟩ := hp
        simp [keptRel, hskip]
      simp [walkNode, hskip, hfil]
    | false =>
      have hstep : walkNode zipPath rel (.dir n none cs) =
          walkList zipPath (rel ++ [n]) cs := by
        simp [walkNode, hskip]
      rw [hstep, walkList_eq zipPath (rel ++ [n]) cs hts]
      simp only [filesOfN, List.filter_map]
      have hfil : (filesListN cs).filter
            ((fun p => keptRel rel p.1) ∘ fun p => (n :: p.1, p.2)) =
          (filesListN cs).filter (fun p => keptRel (rel ++ [n]) p.1) := by
        apply List.filter_congr
        intro q _
        simp [keptRel, hskip]
      rw [hfil, List.map_map]
      congr 1
      apply List.map_congr_left
      intro q _
      simp only [Function.comp]
      rw [List.append_cons rel n q.1]
/-- `walkList` on honest children: concatenation of the children's
non-filtered entries, and no error. -/
theorem walkList_eq (zipPath : Path) (rel : List Path) (ts : List FTree)
    (ht : treeListOKb ts = true) :
    walkList zipPath rel ts =
      (((filesListN ts).filter (fun p => keptRel rel p.1)).map
        (fun p => mkEntry zipPath (rel ++ p.1) p.2), none) := by
  cases ts with
  | nil => simp [walkList, filesListN]
  | cons t ts' =>
    simp only [treeListOKb, Bool.and_eq_true] at ht
    obtain ⟨h1, h2⟩ := ht
    rw [walkList, walkNode_eq zipPath rel t h1, walkList_eq zipPath rel ts' h2]
    simp [filesListN]
end

/-- The whole `addFolderToZip` call on an honest source directory. -/
theorem addFolderToZip_eq (zipPath : Path) (children : List FTree)
    (ht : treeListOKb children = true) :
    addFolderToZip zipPath none children =
      (((filesListN children).filter (fun p => keptRel [] p.1)).map
        (fun p => mkEntry zipPath p.1 p.2), none) := by
  have hroot : shouldSkip (renderRel ([] : List Path)) = false := by decide
  rw [addFolderToZip, if_neg (by simp [hroot]), walkList_eq zipPath [] children ht]
  simp

/-! ## Structure of the file enumeration -/

mutual
/-- Every file path of an honest subtree consists of legal names. -/
theorem filesOfN_valid (t : FTree) (ht : treeOKb t = true) :
    ∀ p ∈ filesOfN t, p.1 ≠ [] ∧ ∀ c ∈ p.1, validName c = true := by
  cases t with
  | file n fi =>
    simp only [treeOKb, Bool.and_eq_true, beq_iff_eq] at ht
    intro p hp
    simp only [filesOfN, List.mem_singleton] at hp
    subst hp
    refine ⟨by simp, ?_⟩
    intro c hc
    simp only [List.mem_singleton] at hc
    subst hc
    exact ht.1.1
  | dir n rd cs =>
    simp only [treeOKb, Bool.and_eq_true, beq_iff_eq,
      decide_eq_true_eq] at ht
    intro p hp
    simp only [filesOfN, List.mem_map] at hp
    obtain ⟨q, hq, rfl⟩ := hp
    refine ⟨by simp, ?_⟩
    intro c hc
    rcases List.mem_cons.mp hc with rfl | hc'
    · exact ht.1.1.1
    · exact ((filesListN_valid cs ht.2 q hq).2) c hc'
/-- `filesOfN_valid` over a child list. -/
theorem filesListN_valid (ts : List FTree) (ht : treeListOKb ts = true) :
    ∀ p ∈ filesListN ts, p.1 ≠ [] ∧ ∀ c ∈ p.1, validName c = true := by
  cases ts with
  | nil => intro p hp; simp [filesListN] at hp
  | cons t ts' =>
    simp only [treeListOKb, Bool.and_eq_true] at ht
    intro p hp
    rcases List.mem_append.mp hp with h | h
    · exact filesOfN_valid t ht.1 p h
    · exact filesListN_valid ts' ht.2 p h
end

/-- Every file path of a subtree starts with the subtree's own name. -/
theorem filesOfN_head (t : FTree) :
    ∀ p ∈ filesOfN t, ∃ su, p.1 = nodeNameOf t :: su := by
  cases t with
  | file n fi =>
    intro p hp
    simp only [filesOfN, List.mem_singleton] at hp
    subst hp
    exact ⟨[], rfl⟩
  | dir n rd cs =>
    intro p hp
    simp only [filesOfN, List.mem_map] at hp
    obtain ⟨q, _, rfl⟩ := hp
    exact ⟨q.1, rfl⟩

/-- Every file path of a child list starts with the name of a child. -/
theorem filesListN_head (ts : List FTree) :
    ∀ p ∈ filesListN ts, ∃ t' ∈ ts, ∃ su, p.1 = nodeNameOf t' :: su := by
  induction ts with
  | nil => intro p hp; simp [filesListN] at hp
  | cons t ts' ih =>
    intro p hp
    rcases List.mem_append.mp hp with h | h
    · obtain ⟨su, hsu⟩ := filesOfN_head t p h
      exact ⟨t, by simp, su, hsu⟩
    · obtain ⟨t', ht', su, hsu⟩ := ih p h
      exact ⟨t', List.mem_cons_of_mem t ht', su, hsu⟩

mutual
/-- File paths of an honest subtree are pairwise distinct. -/
theorem filesOfN_nodup (t : FTree) (ht : treeOKb t = true) :
    ((filesOfN t).map Prod.fst).Nodup := by
  cases t with
  | file n fi => simp [filesOfN]
  | dir n rd cs =>
    simp only [treeOKb, Bool.and_eq_true, beq_iff_eq,
      decide_eq_true_eq] at ht
    have hinner := filesListN_nodup cs ht.2 ht.1.2
    simp only [filesOfN, List.map_map]
    have : ((filesListN cs).map (Prod.fst ∘ fun p => (n :: p.1, p.2)))
        = ((filesListN cs).map Prod.fst).map (fun rp => n :: rp) := by
      simp [List.map_map, Function.comp]
    rw [this]
    exact hinner.map (fun a b h => by simpa using h)
/-- File paths across an honest child list with distinct names are
pairwise distinct. -/
theorem filesListN_nodup (ts : List FTree) (ht : treeListOKb ts = true)
    (hnd : (ts.map nodeNameOf).Nodup) :
    ((filesListN ts).map Prod.fst).Nodup := by
  cases ts with
  | nil => simp [filesListN]
  | cons t ts' =>
    simp only [treeListOKb, Bool.and_eq_true] at ht
    simp only [List.map_cons, List.nodup_cons] at hnd
    simp only [filesListN, List.map_append]
    rw [List.nodup_append]
    refine ⟨filesOfN_nodup t ht.1, filesListN_nodup ts' ht.2 hnd.2, ?_⟩
    intro a ha hb
    simp only [List.mem_map] at ha hb
    obtain ⟨p, hp, rfl⟩ := ha
    obtain ⟨q, hq, hqa⟩ := hb
    obtain ⟨su, hsu⟩ := filesOfN_head t p hp
    obtain ⟨t', ht', su', hsu'⟩ := filesListN_head ts' q hq
    apply hnd.1
    have hname : nodeNameOf t = nodeNameOf t' := by
      have := hqa.trans hsu
      rw [hsu'] at this
      exact ((List.cons.injEq _ _ _ _ ▸ this).1).symm
    rw [hname]
    exact List.mem_map_of_mem nodeNameOf ht'
end

/-! ## The decoder on a clean entry list -/

/-- `unzipEntries` on entries that all pass the guard and suffer no
decode-time I/O failure: the per-entry operation blocks, no error. -/
theorem unzipEntries_clean (dest : Path) (es : List ZipEntry)
    (h : ∀ e ∈ es, slipCheck dest e.name = true ∧ e.isDir = false
        ∧ e.osOpenErr = none ∧ e.zipOpenErr = none ∧ e.copyErr = none) :
    unzipEntries dest es = ((es.map (decodeOps dest)).flatten, none) := by
  induction es with
  | nil => simp [unzipEntries]
  | cons e es' ih =>
    obtain ⟨h1, h2, h3, h4, h5⟩ := h e (by simp)
    have he : unzipEntry dest e = (decodeOps dest e, none) := by
      simp [unzipEntry, h1, h2, h3, h4, h5, decodeOps]
    simp only [unzipEntries, he,
      ih (fun x hx => h x (List.mem_cons_of_mem e hx))]
    simp

/-- Folding decode blocks of entries whose target differs from `target`
leaves the lookup at `target` unchanged. -/
theorem lookup_foldl_notmem (dest : Path) (es : List ZipEntry) (target : Path)
    (h : ∀ e ∈ es, goJoin2 dest e.name ≠ target) :
    ∀ acc, (((es.map (decodeOps dest)).flatten.foldl applyOp acc)).lookup target
      = acc.lookup target := by
  induction es with
  | nil => intro acc; simp
  | cons e es' ih =>
    intro acc
    simp only [List.map_cons, List.flatten_cons, List.foldl_append]
    rw [ih (fun x hx => h x (List.mem_cons_of_mem e hx))]
    have hbeq : (target == goJoin2 dest e.name) = false :=
      beq_eq_false_iff_ne.mpr (fun hh => h e (by simp) hh.symm)
    simp [decodeOps, applyOp, List.lookup, hbeq]

/-- After decoding a list of entries with pairwise-distinct targets, the
file at an entry's target holds that entry's contents. -/
theorem lookup_foldl_mem (dest : Path) (es : List ZipEntry) :
    ∀ e ∈ es, ((es.map (fun x => goJoin2 dest x.name)).Nodup) →
    ∀ acc, (((es.map (decodeOps dest)).flatten.foldl applyOp acc)).lookup
        (goJoin2 dest e.name) = some e.content := by
  induction es with
  | nil => intro e he; cases he
  | cons e' es' ih =>
    intro e he hnd acc
    simp only [List.map_cons, List.nodup_cons] at hnd
    simp only [List.map_cons, List.flatten_cons, List.foldl_append]
    rcases List.mem_cons.mp he with rfl | hmem'
    · have hne : ∀ x ∈ es', goJoin2 dest x.name ≠ goJoin2 dest e.name := by
        intro x hx hcontra
        exact hnd.1 (hcontra ▸ List.mem_map_of_mem _ hx)
      rw [lookup_foldl_notmem dest es' _ hne]
      simp [decodeOps, applyOp, List.lookup]
    · exact ih e hmem' hnd.2 _

/-- The archive name of an encoded file: the label and the relative
components, rendered with separators. -/
theorem mkEntry_name (zipPath : Path) (rp : List Path) (fi : FileNode)
    (hz : validName zipPath = true) (hne : rp ≠ [])
    (hv : ∀ c ∈ rp, validName c = true) :
    (mkEntry zipPath rp fi).name = renderSep (zipPath :: rp) := by
  show goJoin2 zipPath (renderRel rp) = renderSep (zipPath :: rp)
  rw [renderRel, if_neg hne,
    goJoin2_dest zipPath rp (destOK_of_validName _ hz) hne hv,
    cleanL_validName _ hz, renderSep_cons _ _ hne]

/-! ## C4 — the encode/decode round-trip -/

/-- **C4** Round-trip: encoding an honest directory tree with
`addFolderToZip` (under any label, with the entry filter applied) and
decoding the resulting stream with `unzipDest` into an empty destination
root succeeds, and reproduces every non-filtered file with byte-identical
contents at its archive-relative path
`label/components…` under the (cleaned) destination root. -/
theorem encode_decode_roundtrip (dest zipPath : Path)
    (children : List FTree) (rp : List Path) (fi : FileNode)
    (hdest : destOK dest = true)
    (hzip : validName zipPath = true)
    (htree : treeListOKb children = true)
    (huniq : (children.map nodeNameOf).Nodup)
    (hmem : (rp, fi) ∈ filesListN children)
    (hkept : keptRel [] rp = true) :
    (addFolderToZip zipPath none children).2 = none
    ∧ (unzipDest dest none
        (.ok (addFolderToZip zipPath none children).1)).2 = none
    ∧ fileState
        (unzipDest dest none
          (.ok (addFolderToZip zipPath none children).1)).1
        (cleanL dest ++ '/' :: zipPath ++ '/' :: renderSep rp)
      = some fi.content := by
  have henc := addFolderToZip_eq zipPath children htree
  set F := (filesListN children).filter (fun p => keptRel [] p.1) with hF
  set es := F.map (fun p => mkEntry zipPath p.1 p.2) with hes
  have hFmem : ∀ p ∈ F, p.1 ≠ [] ∧ ∀ c ∈ p.1, validName c = true := by
    intro p hp
    exact filesListN_valid children htree p (List.mem_of_mem_filter hp)
  have hvcons : ∀ p : List Path × FileNode, p ∈ F →
      ∀ c ∈ zipPath :: p.1, validName c = true := by
    intro p hp c hc
    rcases List.mem_cons.mp hc with rfl | hc'
    · exact hzip
    · exact (hFmem p hp).2 c hc'
  have hclean : ∀ e ∈ es, slipCheck dest e.name = true ∧ e.isDir = false
      ∧ e.osOpenErr = none ∧ e.zipOpenErr = none ∧ e.copyErr = none := by
    intro e hee
    obtain ⟨p, hp, rfl⟩ := List.mem_map.mp hee
    refine ⟨?_, rfl, rfl, rfl, rfl⟩
    rw [mkEntry_name zipPath p.1 p.2 hzip (hFmem p hp).1 (hFmem p hp).2]
    exact slipCheck_renderSep dest (zipPath :: p.1) hdest (by simp)
      (hvcons p hp)
  have hdec := unzipEntries_clean dest es hclean
  obtain ⟨hrpne, hrpv⟩ := filesListN_valid children htree (rp, fi) hmem
  have hrpcons : ∀ c ∈ zipPath :: rp, validName c = true := by
    intro c hc
    rcases List.mem_cons.mp hc with rfl | hc'
    · exact hzip
    · exact hrpv c hc'
  have heT : mkEntry zipPath rp fi ∈ es :=
    List.mem_map_of_mem _ (List.mem_filter.mpr ⟨hmem, hkept⟩)
  have hname : (mkEntry zipPath rp fi).name = renderSep (zipPath :: rp) :=
    mkEntry_name zipPath rp fi hzip hrpne hrpv
  have htarget : goJoin2 dest (mkEntry zipPath rp fi).name
      = cleanL dest ++ '/' :: zipPath ++ '/' :: renderSep rp := by
    rw [hname, goJoin2_dest dest (zipPath :: rp) hdest (by simp) hrpcons,
      renderSep_cons zipPath rp hrpne]
    simp
  have hmap : es.map (fun x => goJoin2 dest x.name)
      = (F.map Prod.fst).map
          (fun q => cleanL dest ++ '/' :: zipPath ++ '/' :: renderSep q) := by
    rw [hes, List.map_map, List.map_map]
    apply List.map_congr_left
    intro p hp
    simp only [Function.comp]
    rw [mkEntry_name zipPath p.1 p.2 hzip (hFmem p hp).1 (hFmem p hp).2,
      goJoin2_dest dest (zipPath :: p.1) hdest (by simp) (hvcons p hp),
      renderSep_cons zipPath p.1 (hFmem p hp).1]
    simp
  have hvalF : ∀ q ∈ F.map Prod.fst, q ≠ [] ∧ ∀ c ∈ q, validName c = true := by
    intro q hq
    obtain ⟨p, hp, rfl⟩ := List.mem_map.mp hq
    exact hFmem p hp
  have hnodF : (F.map Prod.fst).Nodup := by
    have hsub : List.Sublist (F.map Prod.fst)
        ((filesListN children).map Prod.fst) :=
      (List.filter_sublist _).map Prod.fst
    exact (filesListN_nodup children htree huniq).sublist hsub
  have hnod : (es.map (fun x => goJoin2 dest x.name)).Nodup := by
    rw [hmap]
    refine List.Nodup.map_on ?_ hnodF
    intro x hx y hy hxy
    have h1 : zipPath ++ '/' :: renderSep x = zipPath ++ '/' :: renderSep y := by
      have := List.append_cancel_left hxy
      simpa using this
    have h2 : renderSep x = renderSep y := by
      have := List.append_cancel_left h1
      simpa using this
    have hxv := hvalF x hx
    have hyv := hvalF y hy
    have : splitSep (renderSep x) = splitSep (renderSep y) := by rw [h2]
    rwa [splitSep_renderSep x hxv.1
        (fun c hc => ((validName_iff c).mp (hxv.2 c hc)).2.1),
      splitSep_renderSep y hyv.1
        (fun c hc => ((validName_iff c).mp (hyv.2 c hc)).2.1)] at this
  refine ⟨by rw [henc], ?_, ?_⟩
  · rw [henc]
    simp [unzipDest, hdec]
  · rw [henc]
    have hops : (unzipDest dest none (.ok es)).1
        = FSOp.mkdirAll dest :: (es.map (decodeOps dest)).flatten := by
      simp [unzipDest, hdec]
    simp only [hops, fileState, List.foldl_cons]
    have hstart : applyOp [] (FSOp.mkdirAll dest) = [] := rfl
    rw [hstart, ← htarget]
    exact lookup_foldl_mem dest es (mkEntry zipPath rp fi) heT hnod []

/-- Witness for C4: the spec's scenario tree under the label `User`,
decoded into the Linux destination root; `settings.json` comes back with
its ten bytes. -/
theorem encode_decode_roundtrip_witness :
    (addFolderToZip "User".data none scenarioChildren).2 = none
    ∧ (unzipDest destW none
        (.ok (addFolderToZip "User".data none scenarioChildren).1)).2 = none
    ∧ fileState
        (unzipDest destW none
          (.ok (addFolderToZip "User".data none scenarioChildren).1)).1
        (cleanL destW ++ '/' :: "User".data ++ '/' ::
          renderSep ["settings.json".data])
      = some "0123456789".data :=
  encode_decode_roundtrip destW "User".data scenarioChildren
    ["settings.json".data] { content := "0123456789".data }
    (by decide) (by decide) (by decide) (by decide) (by decide) (by decide)

end VSSync

namespace VSSync

/-! ## C2 — path-traversal rejection in the decoder -/

/-- If the decoder's string-prefix guard accepts an entry, the joined path
really lies strictly inside the destination root in the spec's sense:
the cleaned root's components are a prefix of the joined path's components
and the joined path is not the root itself. -/
theorem slipCheck_implies_strictlyInside (dest name : Path)
    (h : slipCheck dest name = true) :
    strictlyInside (goJoin2 dest name) dest = true := by
  unfold slipCheck at h
  obtain ⟨rest, hrest⟩ := List.isPrefixOf_iff_prefix.mp h
  have hp : goJoin2 dest name = cleanL dest ++ '/' :: rest := by
    rw [← hrest]; simp
  unfold strictlyInside
  rw [hp, Bool.and_eq_true]
  constructor
  · rw [splitSep_append]
    exact List.isPrefixOf_iff_prefix.mpr ⟨splitSep rest, rfl⟩
  · rw [bne_iff_ne]
    intro hcontra
    have := congrArg List.length hcontra
    simp at this

/-- **C2** For every archive entry processed by the decoder (its
predecessors decoded without error), if the entry's name joined to the
destination root does not, after path normalization, lie strictly inside
that root, then the decoder stops at that entry with the path-traversal
error, and the filesystem operations performed are exactly the initial
root `MkdirAll` plus those of the earlier entries — nothing is written
from the offending entry or from any entry after it. -/
theorem unzipDest_path_traversal (dest : Path) (mkErr : Option String)
    (pre : List ZipEntry) (e : ZipEntry) (post : List ZipEntry)
    (hpre : (unzipEntries dest pre).2 = none)
    (hesc : strictlyInside (goJoin2 dest e.name) dest = false) :
    unzipDest dest mkErr (.ok (pre ++ e :: post)) =
      (.mkdirAll dest :: (unzipEntries dest pre).1,
       some (travMsg (goJoin2 dest e.name))) := by
  have hcheck : slipCheck dest e.name = false := by
    rcases Bool.eq_false_or_eq_true (slipCheck dest e.name) with hc | hc
    · rw [slipCheck_implies_strictlyInside dest e.name hc] at hesc
      cases hesc
    · exact hc
  have he : unzipEntry dest e = ([], some (travMsg (goJoin2 dest e.name))) := by
    simp [unzipEntry, hcheck]
  have hmain : unzipEntries dest (pre ++ e :: post) =
      ((unzipEntries dest pre).1, some (travMsg (goJoin2 dest e.name))) := by
    rw [unzipEntries_append dest pre (e :: post) hpre]
    simp only [unzipEntries, he]
    simp
  simp [unzipDest, hmain]

/-- Witness for C2: the spec's crafted `../../evil` entry, after one
benign entry and before another, against the Linux destination root. -/
theorem unzipDest_path_traversal_witness :
    (unzipEntries destW [entryW]).2 = none
    ∧ strictlyInside (goJoin2 destW evilEntry.name) destW = false
    ∧ unzipDest destW none (.ok ([entryW] ++ evilEntry :: [afterEntry])) =
        (.mkdirAll destW :: (unzipEntries destW [entryW]).1,
         some (travMsg (goJoin2 destW evilEntry.name))) :=
  ⟨by decide, by decide,
    unzipDest_path_traversal destW none [entryW] evilEntry [afterEntry]
      (by decide) (by decide)⟩

/-! ## C6 — characterization of the entry filter -/

/-- **C6** For every relative path, `shouldSkip` returns true exactly when
some path component equals a name of the fixed exclusion set (the
`skipDirs` map literal), or the path ends with the socket suffix `.sock`
or the database-journal suffix `-journal`, regardless of directory; it is
a pure function of the path string. -/
theorem shouldSkip_spec (p : Path) :
    shouldSkip p = true ↔
      (∃ c ∈ splitSep p, c ∈ skipDirNames)
      ∨ ".sock".data.isSuffixOf p = true
      ∨ "-journal".data.isSuffixOf p = true := by
  by_cases h1 : (splitSep p).any skipDirs = true
  · simp only [shouldSkip, h1, if_true, true_iff]
    left
    rcases List.any_eq_true.mp h1 with ⟨c, hc, hskip⟩
    exact ⟨c, hc, by simpa [skipDirs] using hskip⟩
  · simp only [shouldSkip, h1, if_false, Bool.if_false_left]
    constructor
    · intro h
      by_cases hs : ".sock".data.isSuffixOf p = true
      · exact Or.inr (Or.inl hs)
      · refine Or.inr (Or.inr ?_)
        by_contra hj
        simp [hs, hj] at h
    · intro h
      rcases h with h | h | h
      · exact absurd (List.any_eq_true.mpr
          ⟨h.choose, h.choose_spec.1, by simp [skipDirs, h.choose_spec.2]⟩) h1
      · simp [h]
      · simp [h]

/-! ## C3 — the per-workspace state directories are in fact excluded -/

/-- **C3** (the claim is contradicted by the code): `shouldSkip` returns
*true* for paths under `workspaceStorage` and `globalStorage` — the
`skipDirs` map lists both names with value `true`, directly under the
comments saying the client context is to be kept — and consequently the
spec's §8 scenario archive contains only `settings.json`:
`workspaceStorage/ws1/state.json` is missing. -/
theorem workspaceStorage_excluded :
    shouldSkip "workspaceStorage/ws1/state.json".data = true
    ∧ shouldSkip "globalStorage/storage.json".data = true
    ∧ addFolderToZip [] none scenarioChildren =
        ([{ name := "settings.json".data,
            content := "0123456789".data }], none) := by
  decide

/-! ## C7 — the backup manager -/

/-- **C7** For every destination path, `backupDir` returns success without
renaming anything when the path does not exist; otherwise it renames the
directory to the original path suffixed with `_backup_` followed by a
second-resolution timestamp in `YYYYMMDD-HHMMSS` shape (eight digits, a
dash, six digits), returning the rename's error if the rename fails. -/
theorem backupDir_spec (path : Path) (statNotExist : Bool)
    (renameErr : Option String) (now : Timestamp) :
    (statNotExist = true →
      backupDir path statNotExist renameErr now = ([], none))
    ∧ (statNotExist = false → renameErr = none →
        backupDir path statNotExist renameErr now =
          ([.rename path (path ++ "_backup_".data ++ formatTS now)], none))
    ∧ (∀ e, statNotExist = false → renameErr = some e →
        backupDir path statNotExist renameErr now = ([], some e))
    ∧ (∃ d8 d6 : Path, formatTS now = d8 ++ '-' :: d6 ∧ d8.length = 8
        ∧ d6.length = 6 ∧ ∀ c ∈ d8 ++ d6, c.isDigit = true) := by
  refine ⟨?_, ?_, ?_, ?_⟩
  · intro h; simp [backupDir, h]
  · intro h1 h2; simp [backupDir, h1, h2]
  · intro e h1 h2; simp [backupDir, h1, h2]
  · refine ⟨pad4 now.year ++ pad2 now.month ++ pad2 now.day,
      pad2 now.hour ++ pad2 now.minute ++ pad2 now.second,
      by simp [formatTS], by simp [pad4, pad2], by simp [pad2], ?_⟩
    intro c hc
    have hd : ∀ m : Nat, m < 10 → (Nat.digitChar m).isDigit = true := by decide
    have hp2 : ∀ k : Nat, ∀ c' ∈ pad2 k, c'.isDigit = true := by
      intro k c' hc'
      simp only [pad2, List.mem_cons, List.not_mem_nil, or_false] at hc'
      rcases hc' with h | h <;> exact h ▸ hd _ (Nat.mod_lt _ (by omega))
    have hp4 : ∀ k : Nat, ∀ c' ∈ pad4 k, c'.isDigit = true := by
      intro k c' hc'
      simp only [pad4, List.mem_cons, List.not_mem_nil, or_false] at hc'
      rcases hc' with h | h | h | h <;> exact h ▸ hd _ (Nat.mod_lt _ (by omega))
    rcases List.mem_append.mp hc with h | h
    · rcases List.mem_append.mp h with h1 | h1
      · rcases List.mem_append.mp h1 with h2 | h2
        · exact hp4 _ _ h2
        · exact hp2 _ _ h2
      · exact hp2 _ _ h1
    · rcases List.mem_append.mp h with h1 | h1
      · rcases List.mem_append.mp h1 with h2 | h2
        · exact hp2 _ _ h2
        · exact hp2 _ _ h2
      · exact hp2 _ _ h1

/-- Witness for C7: a concrete locked destination. -/
theorem backupDir_spec_witness :
    backupDir "/home/u/.config/Code/User".data false (some "locked")
        ⟨2026, 10, 11, 17, 30, 5⟩ = ([], some "locked") :=
  (backupDir_spec "/home/u/.config/Code/User".data false (some "locked")
    ⟨2026, 10, 11, 17, 30, 5⟩).2.2.1 "locked" rfl rfl

/-! ## C10 — the decoder creates the destination root unconditionally -/

/-- **C10** `unzipDest` creates the destination root (with missing
ancestors) before parsing the stream, ignoring any creation error: on a
stream that fails to parse it returns the parse error having performed
exactly the root `MkdirAll`; on every input the first operation is the
root `MkdirAll`; and the result never depends on the outcome of that
ignored `os.MkdirAll` call. -/
theorem unzipDest_root_created (dest : Path) (mkErr : Option String)
    (perr : String) :
    unzipDest dest mkErr (.error perr) = ([.mkdirAll dest], some perr)
    ∧ (∀ parsed, ∃ rest,
        (unzipDest dest mkErr parsed).1 = .mkdirAll dest :: rest)
    ∧ (∀ e1 e2 parsed,
        unzipDest dest e1 parsed = unzipDest dest e2 parsed) := by
  refine ⟨rfl, ?_, ?_⟩
  · intro parsed
    cases parsed with
    | error er => exact ⟨[], rfl⟩
    | ok es => exact ⟨(unzipEntries dest es).1, by simp [unzipDest]⟩
  · intro e1 e2 parsed
    cases parsed <;> rfl

/-! ## C9 — `d.Info()` errors are discarded by the streaming encoder -/

/-- **C9** In `addFolderToZip`, the errors of `d.Info()` and
`zip.FileInfoHeader` are discarded: a file whose metadata cannot be
obtained does not abort the walk with that error; the entry is still
written, with a header built from a nil `FileInfo`. -/
theorem walkNode_discards_infoErr (zipPath : Path) (rel : List Path)
    (n : Path) (fi : FileNode) (e : String) (hinfo : fi.infoErr = some e)
    (hopen : fi.openErr = none) (hread : fi.readErr = none)
    (hskip : shouldSkip (renderRel (rel ++ [n])) = false) :
    walkNode zipPath rel (.file n fi) =
      ([{ name := goJoin2 zipPath (renderRel (rel ++ [n])),
          content := fi.content, fromInfo := false }], none) := by
  simp [walkNode, hskip, hopen, hread, mkEntry, hinfo]

/-- Witness for C9: a concrete file whose stat fails mid-walk. -/
theorem walkNode_discards_infoErr_witness :
    walkNode "User".data []
        (.file "settings.json".data
          { content := "{}".data, infoErr := some "stat failed" }) =
      ([{ name := goJoin2 "User".data (renderRel ["settings.json".data]),
          content := "{}".data, fromInfo := false }], none) :=
  walkNode_discards_infoErr "User".data [] "settings.json".data
    { content := "{}".data, infoErr := some "stat failed" } "stat failed"
    rfl rfl rfl (by decide)

/-! ## C5 — the encoders abort on the first I/O error -/

/-- **C5** Both archive encoders abort the whole encoding on the first
I/O error and surface it to the caller; a failed entry is never skipped.
For `addFolderToZip` (`filepath.WalkDir`): an unreadable directory, an
unopenable file and an unreadable file each abort the walk at that node
with the error, and a walk that has produced entries cleanly and then
meets a failing node returns exactly those earlier entries together with
the error, never visiting the rest.  For `zipSource` (`filepath.Walk`):
likewise, including stat errors, which `Walk` delivers as callback errors. -/
theorem encoder_first_error_aborts (zipPath : Path) (rel : List Path) :
    (∀ n cs e, shouldSkip (renderRel (rel ++ [n])) = false →
        walkNode zipPath rel (.dir n (some e) cs) = ([], some e))
    ∧ (∀ n fi e, shouldSkip (renderRel (rel ++ [n])) = false →
        fi.openErr = some e → walkNode zipPath rel (.file n fi) = ([], some e))
    ∧ (∀ n fi e, shouldSkip (renderRel (rel ++ [n])) = false →
        fi.openErr = none → fi.readErr = some e →
        walkNode zipPath rel (.file n fi) = ([], some e))
    ∧ (∀ ts1 t ts2 es es' e, walkList zipPath rel ts1 = (es, none) →
        walkNode zipPath rel t = (es', some e) →
        walkList zipPath rel (ts1 ++ t :: ts2) = (es ++ es', some e))
    ∧ (∀ ts1 t ts2 es es' e, walkList zipPath [] ts1 = (es, none) →
        walkNode zipPath [] t = (es', some e) →
        addFolderToZip zipPath none (ts1 ++ t :: ts2) = (es ++ es', some e))
    ∧ (∀ n cs e, zwalkNode rel (.dir n (some e) cs) = ([], some e))
    ∧ (∀ n fi e, fi.infoErr = some e →
        zwalkNode rel (.file n fi) = ([], some e))
    ∧ (∀ n fi e, fi.infoErr = none → fi.openErr = some e →
        zwalkNode rel (.file n fi) = ([], some e))
    ∧ (∀ n fi e, fi.infoErr = none → fi.openErr = none →
        fi.readErr = some e → zwalkNode rel (.file n fi) = ([], some e))
    ∧ (∀ ts1 t ts2 es es' e, zwalkList [] ts1 = (es, none) →
        zwalkNode [] t = (es', some e) →
        zipSource none (ts1 ++ t :: ts2) = .error e) := by
  refine ⟨?_, ?_, ?_, ?_, ?_, ?_, ?_, ?_, ?_, ?_⟩
  · intro n cs e h; simp [walkNode, h]
  · intro n fi e h ho; simp [walkNode, h, ho]
  · intro n fi e h ho hr; simp [walkNode, h, ho, hr]
  · exact fun ts1 t ts2 es es' e h1 h2 =>
      walkList_append_abort zipPath rel ts1 t ts2 es es' e h1 h2
  · intro ts1 t ts2 es es' e h1 h2
    have : shouldSkip (renderRel ([] : List Path)) = false := by decide
    simp only [addFolderToZip, this, Bool.false_eq_true, if_false]
    exact walkList_append_abort zipPath [] ts1 t ts2 es es' e h1 h2
  · intro n cs e; simp [zwalkNode]
  · intro n fi e hi; simp [zwalkNode, hi]
  · intro n fi e hi ho; simp [zwalkNode, hi, ho]
  · intro n fi e hi ho hr; simp [zwalkNode, hi, ho, hr]
  · intro ts1 t ts2 es es' e h1 h2
    simp only [zipSource]
    rw [zwalkList_append_abort [] ts1 t ts2 es es' e h1 h2]

/-- Witness for C5: a three-file source directory whose middle file is
unreadable; the encoder returns the first file's entry and the error. -/
theorem encoder_first_error_aborts_witness :
    walkList "User".data []
        ([FTree.file "a.json".data { content := "A".data }] ++
          FTree.file "bad.json".data { openErr := some "EACCES" } ::
            [FTree.file "c.json".data { content := "C".data }]) =
      ([mkEntry "User".data ["a.json".data] { content := "A".data }] ++ [],
        some "EACCES") :=
  (encoder_first_error_aborts "User".data []).2.2.2.1
    [FTree.file "a.json".data { content := "A".data }]
    (FTree.file "bad.json".data { openErr := some "EACCES" })
    [FTree.file "c.json".data { content := "C".data }]
    [mkEntry "User".data ["a.json".data] { content := "A".data }] [] "EACCES"
    (by decide) (by decide)

/-! ## C1 — the legacy client decodes even after a failed backup -/

/-- **C1** (the claim is violated by the legacy revision's client): in the
environment `lockedEnv`, `backupDir` returns an error, yet
`runClientLegacy` invokes `unzipDest` and creates/overwrites files under
the destination ConfigRoot.  The current revision's `runClient` aborts
with no filesystem action in the same environment, as the spec demands. -/
theorem legacy_client_decodes_after_backup_failure :
    (backupDir destW false (some "directory locked by Code.exe")
        lockedEnv.now).2 = some "directory locked by Code.exe"
    ∧ (runClientLegacy lockedEnv).unzipCalled = true
    ∧ (runClientLegacy lockedEnv).actions =
        [.fs (.mkdirAll destW),
         .fs (.mkdirAll destW),
         .fs (.openTrunc "/home/u/.config/Code/User/settings.json".data),
         .fs (.write "/home/u/.config/Code/User/settings.json".data
                "{}".data)]
    ∧ runClient lockedEnv = ⟨[], false⟩ := by
  decide

/-! ## C8 — the streaming server discards encoding errors -/

/-- **C8** (the claim is violated by the current, streaming revision):
on a source root whose only file cannot be opened, `addFolderToZip` fails
before any entry (hence any response byte) is produced, yet the streaming
`/sync` handler discards the error and answers 200 with an empty archive.
The legacy buffered handler answers 500 carrying the error text, as the
claim states. -/
theorem streaming_server_ignores_encode_error :
    addFolderToZip "User".data none unreadableRoot.children =
        ([], some "permission denied")
    ∧ syncHandlerStreaming unreadableRoot {} = ⟨200, .inr []⟩
    ∧ syncHandlerBuffered unreadableRoot = ⟨500, .inl "permission denied"⟩ := by
  decide

end VSSync
